import Mathlib

/-!
Verification of the abstract-algebra core of the qLDPC repository
(src/qldpc/abstract.py): permutation group members with a right-acting
composition, the default permutation-matrix lift, group-algebra elements
over GF(q), protograph lifting, direct-product lifts, the Cayley table,
and the random symmetric subset sampler.

Modelling conventions:
- a sympy permutation of size n is an Equiv.Perm (Fin n); the sympy product
  p*q acts as i goes to q(p(i)), captured by gmul below;
- the field GF(q) is modelled by ZMod q (the two coincide for prime q, and
  every claim below is instantiated at prime moduli);
- the Python dict backing Element is an insertion-ordered association list
  with one entry per key, as in CPython;
- Python sets in random_symmetric_subset are insertion-ordered lists whose
  pop takes the first element, one deterministic refinement of the
  unspecified CPython set iteration order;
- the stream of self.random() draws is an explicit list argument, and
  raised exceptions are explicit outcome constructors.
-/

/-- A group member: a permutation of the set 0..n-1, as in the sympy
array form wrapped by GroupMember. -/
abbrev GM (n : ℕ) := Equiv.Perm (Fin n)

/-- GroupMember.__mul__: sympy permutations compose right to left, meaning
(p*q)(i) = q(p(i)). -/
def gmul {n : ℕ} (p q : GM n) : GM n := p.trans q

/-- default_lift: the permutation matrix with matrix[i, p(i)] = 1, promoted
into the base field as Group.lift does. -/
def default_lift {n : ℕ} (q : ℕ) (p : GM n) : Matrix (Fin n) (Fin n) (ZMod q) :=
  fun i j => if j = p i then 1 else 0

/-- Lookup in the defaultdict backing Element: the value stored at key m,
or 0 when m is absent. -/
def dictGet {n q : ℕ} (v : List (GM n × ZMod q)) (m : GM n) : ZMod q :=
  ((v.find? fun e => decide (e.1 = m)).map Prod.snd).getD 0

/-- Store c at key m in the dict: overwrite in place when the key exists,
append at the end otherwise, as CPython dicts do. -/
def dictSet {n q : ℕ} (v : List (GM n × ZMod q)) (m : GM n) (c : ZMod q) :
    List (GM n × ZMod q) :=
  if v.any fun e => decide (e.1 = m) then
    v.map fun e => if e.1 = m then (m, c) else e
  else v ++ [(m, c)]

/-- Element of the group algebra: the sparse member-to-coefficient map
_vec, with GF(q) coefficients. -/
structure Elem (n q : ℕ) where
  vec : List (GM n × ZMod q)

/-- Element.__init__(group, *members): start from the empty map and add 1
to the coefficient of each listed member in turn. -/
def elemOfMembers (n q : ℕ) (members : List (GM n)) : Elem n q :=
  ⟨members.foldl (fun v m => dictSet v m (dictGet v m + 1)) []⟩

/-- The keys currently present in the map of an Element, in dict order. -/
def Elem.keys {n q : ℕ} (x : Elem n q) : List (GM n) := x.vec.map Prod.fst

/-- Element.__eq__: the coefficients agree at every key present in either
map, keys with value zero being indistinguishable from absent keys. -/
def elemEq {n q : ℕ} (x y : Elem n q) : Prop :=
  (∀ m ∈ x.keys, dictGet x.vec m = dictGet y.vec m) ∧
  (∀ m ∈ y.keys, dictGet x.vec m = dictGet y.vec m)

instance {n q : ℕ} (x y : Elem n q) : Decidable (elemEq x y) := by
  unfold elemEq; infer_instance

/-- The integer branch of Element.__mul__: scale every stored coefficient
by the integer c, reduced into the field. -/
def elemIntMul {n q : ℕ} (x : Elem n q) (c : ℤ) : Elem n q :=
  ⟨x.vec.foldl (fun v e => dictSet v e.1 (e.2 * (c : ZMod q))) []⟩

/-- The GroupMember branch of Element.__mul__.  The branch stores val at
key member * other for every item of the map, but lacks a return
statement: control falls through to the Element-times-Element loop, which
iterates itertools.product(self, other).  Iterating a sympy Permutation
yields the n integers of its array form, so unpacking the second loop
variable as a pair raises TypeError unless the product is empty, that is,
unless the map is empty or the permutation has size 0. -/
def elemMulMember {n q : ℕ} (x : Elem n q) (g : GM n) : Except Unit (Elem n q) :=
  if x.vec = [] ∨ n = 0 then
    .ok ⟨x.vec.foldl (fun v e => dictSet v (gmul e.1 g) e.2) []⟩
  else .error ()

/-- Element.T: map every stored key to its group inverse, keeping the
coefficients. -/
def elemT {n q : ℕ} (x : Elem n q) : Elem n q :=
  ⟨x.vec.foldl (fun v e => dictSet v e.1⁻¹ e.2) []⟩

/-- Element.lift for a group whose lift is L: the sum of coefficient times
lifted member over the stored items, seeded at the zero matrix. -/
def elemLiftWith {n q : ℕ} (L : GM n → Matrix (Fin n) (Fin n) (ZMod q)) (x : Elem n q) :
    Matrix (Fin n) (Fin n) (ZMod q) :=
  x.vec.foldl (fun acc e => acc + e.2 • L e.1) 0

/-- Element.lift for a group equipped with the default permutation-matrix
lift. -/
def elemLift {n q : ℕ} (x : Elem n q) : Matrix (Fin n) (Fin n) (ZMod q) :=
  elemLiftWith (default_lift q) x

/-- The intermediate numpy tensor of Protograph.lift after reshaping the
raveled list of lifted cells to shape (k, l, d, d): axes are cell row,
cell column, intra-block row, intra-block column. -/
def pgTensor1 {k l n q : ℕ} (P : Fin k → Fin l → Elem n q)
    (a : Fin k) (b : Fin l) (i j : Fin n) : ZMod q :=
  elemLift (P a b) i j

/-- The tensor after np.transpose(..., [0, 2, 1, 3]): axes become cell
row, intra-block row, cell column, intra-block column. -/
def pgTensor2 {k l n q : ℕ} (P : Fin k → Fin l → Elem n q)
    (a : Fin k) (i : Fin n) (b : Fin l) (j : Fin n) : ZMod q :=
  pgTensor1 P a b i j

/-- Protograph.lift: the final row-major reshape of the transposed tensor
to shape (k·d, l·d); position (x, y) reads tensor entry
(x / d, x mod d, y / d, y mod d). -/
def protographLift {k l n q : ℕ} (P : Fin k → Fin l → Elem n q) :
    Matrix (Fin (k * n)) (Fin (l * n)) (ZMod q) :=
  fun x y => pgTensor2 P x.divNat x.modNat y.divNat y.modNat

/-- The flat list comprehension building Group.table: for each member aa
in generation order, for each member bb, the enumeration index of aa*bb.
The dict sending each generated member to its enumeration index is
modelled by indexOf, the sympy generator yielding each member once. -/
def cayleyFlat {n : ℕ} (ms : List (GM n)) : List ℕ :=
  ms.flatMap fun a => ms.map fun b => ms.indexOf (gmul a b)

/-- Group.table after the reshape to order times order, in row-major
layout: entry (i, j) is flat position i * order + j. -/
def cayleyTable {n : ℕ} (ms : List (GM n)) (i j : ℕ) : ℕ :=
  (cayleyFlat ms).getD (i * ms.length + j) 0

/-- A numpy matrix as Group.lift returns it: a shape and an entry
function. -/
structure NpMat (q : ℕ) where
  rows : ℕ
  cols : ℕ
  entry : ℕ → ℕ → ZMod q

/-- np.kron: the Kronecker product, of shape (rows·rows, cols·cols), with
entry (i, j) equal to A[i / rB, j / cB] * B[i mod rB, j mod cB]. -/
def npKron {q : ℕ} (A B : NpMat q) : NpMat q :=
  ⟨A.rows * B.rows, A.cols * B.cols,
    fun i j => A.entry (i / B.rows) (j / B.cols) * B.entry (i % B.rows) (j % B.cols)⟩

/-- The lift defined inside Group.__mul__ for a direct product: a member
of the product group splits into its two blocks, and the lift is the
Kronecker product of the factor lifts of the blocks. -/
def productLift {n1 n2 q : ℕ} (L1 : GM n1 → NpMat q) (L2 : GM n2 → NpMat q) :
    GM n1 × GM n2 → NpMat q :=
  fun m => npKron (L1 m.1) (L2 m.2)

/-- Group.lift_dim: the row count of the lift of the first generator. -/
def liftDim {α : Type u} {q : ℕ} (L : α → NpMat q) (gen0 : α) : ℕ :=
  (L gen0).rows

/-- The default permutation-matrix lift packaged as a numpy matrix. -/
def npDefaultLift (n q : ℕ) (p : GM n) : NpMat q :=
  ⟨n, n, fun i j =>
    if h : i < n ∧ j < n then default_lift q p ⟨i, h.1⟩ ⟨j, h.2⟩ else 0⟩

/-- A Python value as far as the ProjectiveSpecialLinearGroup call is
concerned. -/
inductive PyValue where
  | noneVal : PyValue
  | intVal : ℤ → PyValue
  deriving DecidableEq

/-- Outcome of a Python call: a returned value, a TypeError, or a
ValueError. -/
inductive PyOutcome where
  | ok : PyValue → PyOutcome
  | typeError : PyOutcome
  | valueError : PyOutcome
  deriving DecidableEq

/-- ProjectiveSpecialLinearGroup as the source declares it: a def, not a
class.  It is a plain function of exactly one parameter (named Group)
whose body only declares two nested functions and falls off the end,
returning None.  Python call semantics: any other number of positional
arguments raises TypeError before the body runs. -/
def ProjectiveSpecialLinearGroup (args : List PyValue) : PyOutcome :=
  if args.length = 1 then .ok .noneVal else .typeError

/-- Python set.add for the list-backed set model: append the element when
it is new. -/
def setAdd {α : Type u} [DecidableEq α] (s : List α) (m : α) : List α :=
  if m ∈ s then s else s ++ [m]

/-- Python set.pop: remove and return an element, here the first one;
KeyError (none) on an empty set. -/
def setPop {α : Type u} : List α → Option (α × List α)
  | [] => none
  | x :: xs => some (x, xs)

/-- Python set.remove: remove the element when present, KeyError (none)
otherwise. -/
def setRemove {α : Type u} [DecidableEq α] (s : List α) (m : α) : Option (List α) :=
  if m ∈ s then some (s.erase m) else none

/-- The trim loop of random_symmetric_subset: pop a member of doubles and
remove its inverse, a given number of times. -/
def popPairs {α : Type u} [Group α] [DecidableEq α] : ℕ → List α → Option (List α)
  | 0, d => some d
  | kk + 1, d =>
      match setPop d with
      | none => none
      | some mrest =>
          match setRemove mrest.2 mrest.1⁻¹ with
          | none => none
          | some rest2 => popPairs kk rest2

/-- Outcome of random_symmetric_subset on a finite stream of draws: the
up-front ValueError, a KeyError from a set operation, exhaustion of the
draw stream (the Python loop would keep drawing), or a returned subset. -/
inductive RssOutcome (α : Type u) where
  | valueError : RssOutcome α
  | keyError : RssOutcome α
  | outOfDraws : RssOutcome α
  | ok : List α → RssOutcome α
  deriving DecidableEq

/-- One draw is recorded: a self-inverse member joins singles, any other
member joins doubles together with its inverse. -/
def rssAdd {α : Type u} [Group α] [DecidableEq α] (m : α) (s d : List α) :
    List α × List α :=
  if m = m⁻¹ then (setAdd s m, d) else (s, setAdd (setAdd d m) m⁻¹)

/-- The overshoot branch of random_symmetric_subset: discard
num_extra / 2 whole inverse pairs from doubles, then one single when
num_extra is odd, and return the union of the two sets. -/
def rssTrim {α : Type u} [Group α] [DecidableEq α] (extra : ℤ) (s d : List α) :
    RssOutcome α :=
  match popPairs (extra.toNat / 2) d with
  | none => .keyError
  | some d3 =>
      if extra.toNat % 2 = 1 then
        match setPop s with
        | none => .keyError
        | some p => .ok (p.2 ++ d3)
      else .ok (s ++ d3)

/-- One iteration of the sampling loop on a drawn member m: skip the
identity when requested, record the member, then compare the running
count against the requested size exactly as the source does. -/
def rssStep {α : Type u} [Group α] [DecidableEq α] (size : ℤ) (exclId : Bool) (m : α)
    (s d : List α) : List α × List α ⊕ RssOutcome α :=
  if exclId = true ∧ m = 1 then .inl (s, d)
  else
    let sd := rssAdd m s d
    let extra : ℤ := (sd.1.length : ℤ) + (sd.2.length : ℤ) - size
    if extra = 0 then .inr (.ok (sd.1 ++ sd.2))
    else if 0 < extra ∧ sd.1 ≠ [] then .inr (rssTrim extra sd.1 sd.2)
    else .inl sd

/-- The while loop of random_symmetric_subset over an explicit stream of
random draws. -/
def rssLoop {α : Type u} [Group α] [DecidableEq α] (size : ℤ) (exclId : Bool) :
    List α → List α → List α → RssOutcome α
  | [], _, _ => .outOfDraws
  | m :: draws, s, d =>
      match rssStep size exclId m s d with
      | .inl sd => rssLoop size exclId draws sd.1 sd.2
      | .inr out => out

/-- Group.random_symmetric_subset: the size guard raises ValueError before
any draw, then the sampling loop runs on the draw stream. -/
def randomSymmetricSubset {α : Type u} [Group α] [DecidableEq α] (order : ℕ) (size : ℤ)
    (exclId : Bool) (draws : List α) : RssOutcome α :=
  if ¬(0 < size ∧ size ≤ (order : ℤ)) then .valueError
  else rssLoop size exclId draws [] []

/-- Loop invariant of the sampler: singles are distinct self-inverse
members, doubles are distinct non-self-inverse members closed under
inversion, and neither set holds the identity when it is excluded. -/
structure RssInv {α : Type u} [Group α] (exclId : Bool) (s d : List α) : Prop where
  nodupS : s.Nodup
  nodupD : d.Nodup
  selfInv : ∀ x ∈ s, x⁻¹ = x
  notSelfInv : ∀ x ∈ d, x⁻¹ ≠ x
  closedD : ∀ x ∈ d, x⁻¹ ∈ d
  noIdS : exclId = true → (1 : α) ∉ s
  noIdD : exclId = true → (1 : α) ∉ d

theorem dictGet_single {n q : ℕ} (g : GM n) (c : ZMod q) : dictGet [(g, c)] g = c := by
  simp [dictGet]

theorem dictSet_single {n q : ℕ} (g : GM n) (c c2 : ZMod q) :
    dictSet [(g, c)] g c2 = [(g, c2)] := by
  simp [dictSet]

theorem foldl_replicate_single {n q : ℕ} (g : GM n) :
    ∀ (k : ℕ) (c : ZMod q),
      (List.replicate k g).foldl (fun v m => dictSet v m (dictGet v m + 1)) [(g, c)] =
        [(g, c + k)]
  | 0, c => by simp
  | k + 1, c => by
      rw [List.replicate_succ, List.foldl_cons, dictGet_single, dictSet_single,
        foldl_replicate_single g k (c + 1)]
      push_cast
      ring_nf

theorem elemOfMembers_replicate {n q : ℕ} (g : GM n) (k : ℕ) (hk : k ≠ 0) :
    elemOfMembers n q (List.replicate k g) = ⟨[(g, (k : ZMod q))]⟩ := by
  cases k with
  | zero => exact absurd rfl hk
  | succ k =>
      unfold elemOfMembers
      rw [List.replicate_succ, List.foldl_cons]
      have h0 : dictSet ([] : List (GM n × ZMod q)) g (dictGet [] g + 1) = [(g, 1)] := by
        simp [dictSet, dictGet]
      rw [h0, foldl_replicate_single g k 1]
      congr 2
      push_cast
      ring_nf

theorem flatMap_getD {α : Type u} {β : Type v} (f : α → List β) (nn : ℕ) (d : β)
    (hf : ∀ a, (f a).length = nn) :
    ∀ (l : List α) (i j : ℕ) (hi : i < l.length), j < nn →
      (l.flatMap f).getD (i * nn + j) d = (f (l.get ⟨i, hi⟩)).getD j d := by
  intro l
  induction l with
  | nil => intro i j hi _; exact absurd hi (by simp)
  | cons a t ih =>
      intro i j hi hj
      cases i with
      | zero =>
          rw [List.flatMap_cons, Nat.zero_mul, Nat.zero_add,
            List.getD_eq_getElem?_getD, List.getElem?_append_left (by rw [hf a]; exact hj),
            ← List.getD_eq_getElem?_getD]
          rfl
      | succ i =>
          rw [List.flatMap_cons, List.getD_eq_getElem?_getD,
            List.getElem?_append_right (by rw [hf a]; nlinarith),
            ← List.getD_eq_getElem?_getD]
          have harith : i.succ * nn + j - (f a).length = i * nn + j := by
            rw [hf a, Nat.succ_mul]; omega
          rw [harith]
          exact ih i j (Nat.lt_of_succ_lt_succ hi) hj

theorem rssTrim_ne_valueError {α : Type u} [Group α] [DecidableEq α] (extra : ℤ)
    (s d : List α) : rssTrim extra s d ≠ .valueError := by
  unfold rssTrim
  repeat' split
  all_goals simp

theorem rssStep_ne_valueError {α : Type u} [Group α] [DecidableEq α] (size : ℤ)
    (exclId : Bool) (m : α) (s d : List α) :
    rssStep size exclId m s d ≠ .inr .valueError := by
  unfold rssStep
  dsimp only
  repeat' split
  all_goals intro h
  all_goals
    first
      | exact Sum.noConfusion h
      | (injection h with h2; exact rssTrim_ne_valueError _ _ _ h2)
      | (injection h with h2; exact RssOutcome.noConfusion h2)

theorem rssLoop_ne_valueError {α : Type u} [Group α] [DecidableEq α] (size : ℤ)
    (exclId : Bool) :
    ∀ (draws s d : List α), rssLoop size exclId draws s d ≠ .valueError := by
  intro draws
  induction draws with
  | nil => intro s d h; simp [rssLoop] at h
  | cons m rest ih =>
      intro s d h
      rw [rssLoop] at h
      rcases hstep : rssStep size exclId m s d with sd | out
      · rw [hstep] at h
        exact ih sd.1 sd.2 h
      · rw [hstep] at h
        dsimp only at h
        subst h
        exact rssStep_ne_valueError size exclId m s d hstep

theorem mem_setAdd {α : Type u} [DecidableEq α] {s : List α} {m x : α} :
    x ∈ setAdd s m ↔ x ∈ s ∨ x = m := by
  unfold setAdd
  split
  · rename_i h
    constructor
    · exact fun hx => Or.inl hx
    · rintro (hx | rfl)
      · exact hx
      · exact h
  · simp [List.mem_append]

theorem nodup_setAdd {α : Type u} [DecidableEq α] {s : List α} (hs : s.Nodup) (m : α) :
    (setAdd s m).Nodup := by
  unfold setAdd
  split
  · exact hs
  · rename_i h
    rw [List.nodup_append]
    refine ⟨hs, List.nodup_singleton m, ?_⟩
    intro a ha hma
    rw [List.mem_singleton] at hma
    subst hma
    exact h ha

theorem inv_rssAdd {α : Type u} [Group α] [DecidableEq α] {exclId : Bool} {s d : List α}
    (hInv : RssInv exclId s d) (m : α) (hm1 : ¬(exclId = true ∧ m = 1)) :
    RssInv exclId (rssAdd m s d).1 (rssAdd m s d).2 := by
  unfold rssAdd
  by_cases hm : m = m⁻¹
  · rw [if_pos hm]
    refine ⟨nodup_setAdd hInv.nodupS m, hInv.nodupD, ?_, hInv.notSelfInv, hInv.closedD,
      ?_, hInv.noIdD⟩
    · intro x hx
      rcases mem_setAdd.mp hx with hx | rfl
      · exact hInv.selfInv x hx
      · exact hm.symm
    · intro hexcl hmem
      rcases mem_setAdd.mp hmem with hmem | h1m
      · exact hInv.noIdS hexcl hmem
      · exact hm1 ⟨hexcl, h1m.symm⟩
  · rw [if_neg hm]
    refine ⟨hInv.nodupS, nodup_setAdd (nodup_setAdd hInv.nodupD m) m⁻¹, hInv.selfInv,
      ?_, ?_, hInv.noIdS, ?_⟩
    · intro x hx
      rcases mem_setAdd.mp hx with hx | rfl
      · rcases mem_setAdd.mp hx with hx | rfl
        · exact hInv.notSelfInv x hx
        · exact fun h => hm h.symm
      · rw [inv_inv]
        exact hm
    · intro x hx
      rcases mem_setAdd.mp hx with hx | rfl
      · rcases mem_setAdd.mp hx with hx | rfl
        · exact mem_setAdd.mpr (Or.inl (mem_setAdd.mpr (Or.inl (hInv.closedD x hx))))
        · exact mem_setAdd.mpr (Or.inr rfl)
      · rw [inv_inv]
        exact mem_setAdd.mpr (Or.inl (mem_setAdd.mpr (Or.inr rfl)))
    · intro hexcl hmem
      have hm1b : m ≠ 1 := fun h => hm1 ⟨hexcl, h⟩
      rcases mem_setAdd.mp hmem with hmem | h1
      · rcases mem_setAdd.mp hmem with hmem | h1
        · exact hInv.noIdD hexcl hmem
        · exact hm1b h1.symm
      · exact hm1b (by rwa [eq_comm, inv_eq_one] at h1)

theorem popPairs_spec {α : Type u} [Group α] [DecidableEq α] :
    ∀ (kk : ℕ) (d d3 : List α), popPairs kk d = some d3 →
      d.Nodup → (∀ x ∈ d, x⁻¹ ≠ x) → (∀ x ∈ d, x⁻¹ ∈ d) →
      d3.Nodup ∧ (∀ x ∈ d3, x ∈ d) ∧ (∀ x ∈ d3, x⁻¹ ∈ d3) ∧ (∀ x ∈ d3, x⁻¹ ≠ x) ∧
        (d3.length : ℤ) = (d.length : ℤ) - 2 * kk := by
  intro kk
  induction kk with
  | zero =>
      intro d d3 h hn hns hc
      rw [popPairs] at h
      injection h with h
      subst h
      exact ⟨hn, fun x hx => hx, hc, hns, by simp⟩
  | succ kk ih =>
      intro d d3 h hn hns hc
      rw [popPairs] at h
      cases d with
      | nil => simp [setPop] at h
      | cons m rest =>
          simp only [setPop] at h
          rcases hrem : setRemove rest m⁻¹ with _ | rest2
          · rw [hrem] at h
            exact Option.noConfusion h
          · rw [hrem] at h
            unfold setRemove at hrem
            split at hrem
            · rename_i hmemi
              injection hrem with hrem
              subst hrem
              rw [List.nodup_cons] at hn
              obtain ⟨hm_notin, hrest_nodup⟩ := hn
              have hmem_sub : ∀ x ∈ rest.erase m⁻¹, x ∈ rest := fun x hx =>
                ((List.Nodup.mem_erase_iff hrest_nodup).mp hx).2
              have hne_sub : ∀ x ∈ rest.erase m⁻¹, x ≠ m⁻¹ := fun x hx =>
                ((List.Nodup.mem_erase_iff hrest_nodup).mp hx).1
              have hclosed2 : ∀ x ∈ rest.erase m⁻¹, x⁻¹ ∈ rest.erase m⁻¹ := by
                intro x hx
                have hxrest := hmem_sub x hx
                have hxd : x ∈ m :: rest := List.mem_cons_of_mem m hxrest
                have hxinv : x⁻¹ ∈ m :: rest := hc x hxd
                have hxm : x ≠ m := fun hxm => hm_notin (hxm ▸ hxrest)
                have hxinv_ne_m : x⁻¹ ≠ m := by
                  intro hh
                  exact hne_sub x hx (by rw [← hh, inv_inv])
                have hxinv_rest : x⁻¹ ∈ rest := by
                  rcases List.mem_cons.mp hxinv with hh | hh
                  · exact absurd hh hxinv_ne_m
                  · exact hh
                rw [List.Nodup.mem_erase_iff hrest_nodup]
                refine ⟨?_, hxinv_rest⟩
                intro hh
                exact hxm (by rw [← inv_inv x, hh, inv_inv])
              have hns2 : ∀ x ∈ rest.erase m⁻¹, x⁻¹ ≠ x := fun x hx =>
                hns x (List.mem_cons_of_mem m (hmem_sub x hx))
              obtain ⟨h1, h2, h3, h4, h5⟩ := ih (rest.erase m⁻¹) d3 h
                (List.Nodup.erase _ hrest_nodup) hns2 hclosed2
              refine ⟨h1, ?_, h3, h4, ?_⟩
              · intro x hx
                exact List.mem_cons_of_mem m (hmem_sub x (h2 x hx))
              · rw [h5, List.length_erase_of_mem hmemi]
                have hlen : 1 ≤ rest.length := List.length_pos.mpr
                  (List.ne_nil_of_mem hmemi)
                simp only [List.length_cons]
                push_cast
                omega
            · exact Option.noConfusion hrem

theorem rss_union_props {α : Type u} [Group α] {spart dpart : List α}
    (hsn : spart.Nodup) (hdn : dpart.Nodup)
    (hss : ∀ x ∈ spart, x⁻¹ = x) (hds : ∀ x ∈ dpart, x⁻¹ ≠ x)
    (hdc : ∀ x ∈ dpart, x⁻¹ ∈ dpart) :
    (spart ++ dpart).Nodup ∧ (∀ x ∈ spart ++ dpart, x⁻¹ ∈ spart ++ dpart) := by
  constructor
  · rw [List.nodup_append]
    refine ⟨hsn, hdn, ?_⟩
    intro a ha had
    exact hds a had (hss a ha)
  · intro x hx
    rcases List.mem_append.mp hx with hx | hx
    · exact List.mem_append.mpr (Or.inl (by rw [hss x hx]; exact hx))
    · exact List.mem_append.mpr (Or.inr (hdc x hx))

theorem rssTrim_ok {α : Type u} [Group α] [DecidableEq α] {exclId : Bool} {size extra : ℤ}
    {s d out : List α} (hInv : RssInv exclId s d)
    (hextra : extra = (s.length : ℤ) + (d.length : ℤ) - size) (hpos : 0 < extra)
    (h : rssTrim extra s d = .ok out) :
    out.Nodup ∧ ((out.length : ℤ) = size) ∧ (∀ x ∈ out, x⁻¹ ∈ out) ∧
      (exclId = true → (1 : α) ∉ out) := by
  unfold rssTrim at h
  rcases hpop : popPairs (extra.toNat / 2) d with _ | d3
  · rw [hpop] at h
    exact RssOutcome.noConfusion h
  · rw [hpop] at h
    dsimp only at h
    obtain ⟨hd3_nodup, hd3_sub, hd3_closed, hd3_ns, hd3_len⟩ :=
      popPairs_spec _ d d3 hpop hInv.nodupD hInv.notSelfInv hInv.closedD
    by_cases hodd : extra.toNat % 2 = 1
    · rw [if_pos hodd] at h
      cases s with
      | nil => simp [setPop] at h
      | cons m0 srest =>
          simp only [setPop] at h
          injection h with h
          subst h
          obtain ⟨hs0, hsrest⟩ := List.nodup_cons.mp hInv.nodupS
          have hsub : ∀ x ∈ srest, x ∈ m0 :: srest := fun x hx =>
            List.mem_cons_of_mem m0 hx
          obtain ⟨hnd, hcl⟩ := rss_union_props hsrest hd3_nodup
            (fun x hx => hInv.selfInv x (hsub x hx)) hd3_ns hd3_closed
          refine ⟨hnd, ?_, hcl, ?_⟩
          · rw [List.length_append]
            have hslen : ((m0 :: srest).length : ℤ) = (srest.length : ℤ) + 1 := by
              simp
            push_cast
            push_cast at hslen hextra hd3_len
            omega
          · intro hexcl hmem
            rcases List.mem_append.mp hmem with hh | hh
            · exact hInv.noIdS hexcl (hsub 1 hh)
            · exact hInv.noIdD hexcl (hd3_sub 1 hh)
    · rw [if_neg hodd] at h
      injection h with h
      subst h
      obtain ⟨hnd, hcl⟩ := rss_union_props hInv.nodupS hd3_nodup
        hInv.selfInv hd3_ns hd3_closed
      refine ⟨hnd, ?_, hcl, ?_⟩
      · rw [List.length_append]
        push_cast
        push_cast at hextra hd3_len
        omega
      · intro hexcl hmem
        rcases List.mem_append.mp hmem with hh | hh
        · exact hInv.noIdS hexcl hh
        · exact hInv.noIdD hexcl (hd3_sub 1 hh)

theorem rssStep_inl {α : Type u} [Group α] [DecidableEq α] {size : ℤ} {exclId : Bool}
    {m : α} {s d : List α} {sd : List α × List α} (hInv : RssInv exclId s d)
    (h : rssStep size exclId m s d = .inl sd) : RssInv exclId sd.1 sd.2 := by
  unfold rssStep at h
  by_cases h1 : exclId = true ∧ m = 1
  · rw [if_pos h1] at h
    injection h with h
    subst h
    exact hInv
  · rw [if_neg h1] at h
    dsimp only at h
    split at h
    · exact Sum.noConfusion h
    · split at h
      · exact Sum.noConfusion h
      · injection h with h
        subst h
        exact inv_rssAdd hInv m h1

theorem rssStep_ok {α : Type u} [Group α] [DecidableEq α] {size : ℤ} {exclId : Bool}
    {m : α} {s d out : List α} (hInv : RssInv exclId s d)
    (h : rssStep size exclId m s d = .inr (.ok out)) :
    out.Nodup ∧ ((out.length : ℤ) = size) ∧ (∀ x ∈ out, x⁻¹ ∈ out) ∧
      (exclId = true → (1 : α) ∉ out) := by
  unfold rssStep at h
  by_cases h1 : exclId = true ∧ m = 1
  · rw [if_pos h1] at h
    exact Sum.noConfusion h
  · rw [if_neg h1] at h
    dsimp only at h
    have hInv2 : RssInv exclId (rssAdd m s d).1 (rssAdd m s d).2 := inv_rssAdd hInv m h1
    split at h
    · rename_i h2
      injection h with h
      injection h with h
      subst h
      obtain ⟨hnd, hcl⟩ := rss_union_props hInv2.nodupS hInv2.nodupD hInv2.selfInv
        hInv2.notSelfInv hInv2.closedD
      refine ⟨hnd, ?_, hcl, ?_⟩
      · rw [List.length_append]
        push_cast
        omega
      · intro hexcl hmem
        rcases List.mem_append.mp hmem with hh | hh
        · exact hInv2.noIdS hexcl hh
        · exact hInv2.noIdD hexcl hh
    · split at h
      · rename_i h3
        injection h with h
        exact rssTrim_ok hInv2 rfl h3.1 h
      · exact Sum.noConfusion h

theorem rssLoop_ok {α : Type u} [Group α] [DecidableEq α] (size : ℤ) (exclId : Bool) :
    ∀ (draws s d out : List α), RssInv exclId s d →
      rssLoop size exclId draws s d = .ok out →
      out.Nodup ∧ ((out.length : ℤ) = size) ∧ (∀ x ∈ out, x⁻¹ ∈ out) ∧
        (exclId = true → (1 : α) ∉ out) := by
  intro draws
  induction draws with
  | nil => intro s d out _ h; simp [rssLoop] at h
  | cons m rest ih =>
      intro s d out hInv h
      rw [rssLoop] at h
      rcases hstep : rssStep size exclId m s d with sd | o
      · rw [hstep] at h
        exact ih sd.1 sd.2 out (rssStep_inl hInv hstep) h
      · rw [hstep] at h
        dsimp only at h
        subst h
        exact rssStep_ok hInv hstep

/-- Claim C1: for the default permutation-matrix lift and the right-acting
member product, the lift of a product of members equals the matrix product
of the lifts over the base field. -/
theorem lift_homomorphism {n q : ℕ} (p r : GM n) :
    default_lift q (gmul p r) = default_lift q p * default_lift q r := by
  ext i k
  rw [Matrix.mul_apply]
  simp only [default_lift, gmul, Equiv.trans_apply]
  rw [Finset.sum_eq_single (p i)]
  · simp
  · intro b _ hb
    simp [if_neg hb]
  · intro h
    exact absurd (Finset.mem_univ _) h

/-- Claim C2: evaluation at the failing input.  Multiplying the nonzero
element on the 3-cycle by the 3-cycle does not return the key-shifted
element: the GroupMember branch of Element.__mul__ lacks a return, control
falls into the convolution loop, and the call raises TypeError. -/
theorem elemMulMember_type_error :
    elemMulMember (elemOfMembers 3 2 [finRotate 3]) (finRotate 3) = .error () := by
  have h : (elemOfMembers 3 2 [finRotate 3]).vec ≠ [] := by decide
  simp [elemMulMember, h]

/-- Claim C3: evaluation at the failing inputs.  Because the source
declares ProjectiveSpecialLinearGroup with def rather than class, the
two-argument calls PSL(3, 3) and PSL(2, 3) raise TypeError instead of
constructing a Group or raising ValueError, and a one-argument call
returns None, which is not a Group. -/
theorem projective_special_linear_group_call :
    ProjectiveSpecialLinearGroup [.intVal 3, .intVal 3] = .typeError ∧
    ProjectiveSpecialLinearGroup [.intVal 2, .intVal 3] = .typeError ∧
    ProjectiveSpecialLinearGroup [.intVal 2] = .ok .noneVal :=
  ⟨rfl, rfl, rfl⟩

/-- Claim C4: whenever random_symmetric_subset returns, the returned set
has no duplicates, has exactly the requested number of members, is closed
under inversion, and omits the identity when exclude_identity is set. -/
theorem rss_ok_properties {α : Type u} [Group α] [DecidableEq α] (order : ℕ) (size : ℤ)
    (exclId : Bool) (draws out : List α)
    (h : randomSymmetricSubset (α := α) order size exclId draws = .ok out) :
    out.Nodup ∧ ((out.length : ℤ) = size) ∧ (∀ x ∈ out, x⁻¹ ∈ out) ∧
      (exclId = true → (1 : α) ∉ out) := by
  unfold randomSymmetricSubset at h
  split at h
  · exact RssOutcome.noConfusion h
  · exact rssLoop_ok size exclId draws [] [] out
      ⟨List.nodup_nil, List.nodup_nil, by simp, by simp, by simp, by simp, by simp⟩ h

/-- Claim C4 witness: a concrete run on the cyclic group of order 5 that
returns a 2-element symmetric subset. -/
theorem rss_ok_properties_witness :
    ([Multiplicative.ofAdd (1 : ZMod 5), Multiplicative.ofAdd (4 : ZMod 5)]).Nodup ∧
      ((([Multiplicative.ofAdd (1 : ZMod 5), Multiplicative.ofAdd (4 : ZMod 5)] :
          List (Multiplicative (ZMod 5))).length : ℤ) = 2) ∧
      (∀ x ∈ ([Multiplicative.ofAdd (1 : ZMod 5), Multiplicative.ofAdd (4 : ZMod 5)] :
          List (Multiplicative (ZMod 5))), x⁻¹ ∈
        ([Multiplicative.ofAdd (1 : ZMod 5), Multiplicative.ofAdd (4 : ZMod 5)] :
          List (Multiplicative (ZMod 5)))) ∧
      (false = true → (1 : Multiplicative (ZMod 5)) ∉
        ([Multiplicative.ofAdd (1 : ZMod 5), Multiplicative.ofAdd (4 : ZMod 5)] :
          List (Multiplicative (ZMod 5)))) :=
  rss_ok_properties 5 2 false [Multiplicative.ofAdd 1]
    [Multiplicative.ofAdd 1, Multiplicative.ofAdd 4] (by decide)

/-- Claim C5: random_symmetric_subset reports the up-front ValueError
exactly when the requested size lies outside the interval from 1 to the
group order; the guard sits before the first draw, and the sampling loop
itself never produces that error. -/
theorem rss_value_error_iff {α : Type u} [Group α] [DecidableEq α] (order : ℕ) (size : ℤ)
    (exclId : Bool) (draws : List α) :
    randomSymmetricSubset (α := α) order size exclId draws = .valueError ↔
      ¬(0 < size ∧ size ≤ (order : ℤ)) := by
  unfold randomSymmetricSubset
  by_cases h : ¬(0 < size ∧ size ≤ (order : ℤ))
  · simp [h]
  · simp only [h, if_false]
    constructor
    · intro hh
      exact absurd hh (rssLoop_ne_valueError size exclId draws [] [])
    · intro hh
      exact hh.elim

/-- Claim C6: in the cached Cayley table, the entry at row i and column j
is the enumeration index of the product of the i-th and j-th members of
the fixed enumeration. -/
theorem cayley_table_entry {n : ℕ} (ms : List (GM n)) (i j : ℕ)
    (hi : i < ms.length) (hj : j < ms.length) :
    cayleyTable ms i j = ms.indexOf (gmul (ms.get ⟨i, hi⟩) (ms.get ⟨j, hj⟩)) := by
  unfold cayleyTable cayleyFlat
  rw [flatMap_getD _ ms.length 0 (fun a => by simp) ms i j hi hj]
  rw [List.getD_eq_getElem?_getD, List.getElem?_map, List.getElem?_eq_getElem hj]
  rfl

/-- Claim C6 witness: the table of the two permutations of two points,
evaluated at row 1 and column 1. -/
theorem cayley_table_entry_witness :
    cayleyTable [(1 : GM 2), Equiv.swap 0 1] 1 1 =
      [(1 : GM 2), Equiv.swap 0 1].indexOf
        (gmul ([(1 : GM 2), Equiv.swap 0 1].get ⟨1, by decide⟩)
          ([(1 : GM 2), Equiv.swap 0 1].get ⟨1, by decide⟩)) :=
  cayley_table_entry [(1 : GM 2), Equiv.swap 0 1] 1 1 (by decide) (by decide)

/-- Claim C7: the protograph lift is a (k·d) by (l·d) matrix (by its
type), and its entry at row r·d + i, column c·d + j is entry (i, j) of the
lift of protograph cell (r, c): blocks are laid out by cell position. -/
theorem protograph_lift_entry {k l n q : ℕ} (P : Fin k → Fin l → Elem n q)
    (r : Fin k) (c : Fin l) (i j : Fin n) (x : Fin (k * n)) (y : Fin (l * n))
    (hx : (x : ℕ) = r * n + i) (hy : (y : ℕ) = c * n + j) :
    protographLift P x y = elemLift (P r c) i j := by
  have hn : 0 < n := i.pos
  have e1 : x.divNat = r := by
    apply Fin.ext
    show (x : ℕ) / n = (r : ℕ)
    rw [hx, Nat.add_comm, Nat.mul_comm, Nat.add_mul_div_left _ _ hn,
      Nat.div_eq_of_lt i.2, Nat.zero_add]
  have e2 : x.modNat = i := by
    apply Fin.ext
    show (x : ℕ) % n = (i : ℕ)
    rw [hx, Nat.add_comm, Nat.mul_comm, Nat.add_mul_mod_self_left,
      Nat.mod_eq_of_lt i.2]
  have e3 : y.divNat = c := by
    apply Fin.ext
    show (y : ℕ) / n = (c : ℕ)
    rw [hy, Nat.add_comm, Nat.mul_comm, Nat.add_mul_div_left _ _ hn,
      Nat.div_eq_of_lt j.2, Nat.zero_add]
  have e4 : y.modNat = j := by
    apply Fin.ext
    show (y : ℕ) % n = (j : ℕ)
    rw [hy, Nat.add_comm, Nat.mul_comm, Nat.add_mul_mod_self_left,
      Nat.mod_eq_of_lt j.2]
  rw [protographLift, e1, e2, e3, e4]
  rfl

/-- Claim C7 witness: a 2 by 2 protograph of 2 by 2 blocks, read at global
position (3, 0), which is block (1, 0), entry (1, 0). -/
theorem protograph_lift_entry_witness :
    protographLift (fun _ _ => elemOfMembers 2 2 [1])
        (⟨3, by decide⟩ : Fin (2 * 2)) (⟨0, by decide⟩ : Fin (2 * 2)) =
      elemLift (elemOfMembers 2 2 [1]) 1 0 :=
  protograph_lift_entry _ 1 0 1 0 _ _ (by decide) (by decide)

/-- Claim C8: the lift built by the direct product of two groups over the
same field is the Kronecker product of the factor lifts, so its dimension
is the product of the two lift dimensions. -/
theorem product_lift_dim {n1 n2 q : ℕ} (L1 : GM n1 → NpMat q) (L2 : GM n2 → NpMat q)
    (d1 d2 : ℕ) (h1 : ∀ m, (L1 m).rows = d1) (h2 : ∀ m, (L2 m).rows = d2)
    (g : GM n1 × GM n2) (g1 : GM n1) (g2 : GM n2) :
    liftDim (productLift L1 L2) g = liftDim L1 g1 * liftDim L2 g2 := by
  simp [liftDim, productLift, npKron, h1, h2]

/-- Claim C8 witness: the product of the default lifts on 2 and 3 points
has lift dimension 2 times 3. -/
theorem product_lift_dim_witness :
    liftDim (productLift (npDefaultLift 2 2) (npDefaultLift 3 2)) (1, 1) =
      liftDim (npDefaultLift 2 2) 1 * liftDim (npDefaultLift 3 2) 1 :=
  product_lift_dim _ _ 2 3 (fun _ => rfl) (fun _ => rfl) _ _ _

/-- Claim C9: for any lift that is a homomorphism of orthogonal matrices,
the transpose of the single-member element on p equals (as an Element) the
single-member element on the inverse of p, and its lift equals the matrix
transpose of the lift of p. -/
theorem element_transpose_orthogonal {n q : ℕ}
    (L : GM n → Matrix (Fin n) (Fin n) (ZMod q))
    (hhom : ∀ p r : GM n, L (gmul p r) = L p * L r)
    (horth : ∀ p : GM n, L p * (L p).transpose = 1) (p : GM n) :
    elemEq (elemT (elemOfMembers n q [p])) (elemOfMembers n q [p⁻¹]) ∧
    elemLiftWith L (elemT (elemOfMembers n q [p])) = (L p).transpose := by
  have hsingle : ∀ g : GM n, elemOfMembers n q [g] = ⟨[(g, (1 : ZMod q))]⟩ := by
    intro g
    have := elemOfMembers_replicate (q := q) g 1 one_ne_zero
    simpa using this
  have hT : elemT (elemOfMembers n q [p]) = ⟨[(p⁻¹, (1 : ZMod q))]⟩ := by
    rw [hsingle p]
    unfold elemT
    simp [dictSet]
  constructor
  · rw [hT, hsingle p⁻¹]
    exact ⟨fun m hm => rfl, fun m hm => rfl⟩
  · rw [hT]
    have hgmul_inv : gmul p p⁻¹ = 1 := by
      apply Equiv.ext
      intro i
      simp [gmul]
    have hgmul_one : gmul (1 : GM n) 1 = 1 := by
      apply Equiv.ext
      intro i
      simp [gmul]
    have hone : L 1 = 1 := by
      have hsq : L 1 = L 1 * L 1 := by
        rw [← hhom 1 1, hgmul_one]
      calc L 1 = L 1 * 1 := by rw [Matrix.mul_one]
        _ = L 1 * (L 1 * (L 1).transpose) := by rw [horth 1]
        _ = (L 1 * L 1) * (L 1).transpose := by rw [Matrix.mul_assoc]
        _ = L 1 * (L 1).transpose := by rw [← hsq]
        _ = 1 := horth 1
    have hinv : L p * L p⁻¹ = 1 := by
      rw [← hhom p p⁻¹, hgmul_inv, hone]
    have hcomm : (L p).transpose * L p = 1 := Matrix.mul_eq_one_comm.mp (horth p)
    have hLinv : L p⁻¹ = (L p).transpose := by
      calc L p⁻¹ = 1 * L p⁻¹ := by rw [Matrix.one_mul]
        _ = ((L p).transpose * L p) * L p⁻¹ := by rw [hcomm]
        _ = (L p).transpose * (L p * L p⁻¹) := by rw [Matrix.mul_assoc]
        _ = (L p).transpose * 1 := by rw [hinv]
        _ = (L p).transpose := by rw [Matrix.mul_one]
    unfold elemLiftWith
    simp only [List.foldl_cons, List.foldl_nil, zero_add, one_smul]
    exact hLinv

/-- Claim C9 witness: the default permutation lift on two points over
GF(3), at the transposition. -/
theorem element_transpose_orthogonal_witness :
    (elemEq (elemT (elemOfMembers 2 3 [Equiv.swap 0 1]))
      (elemOfMembers 2 3 [(Equiv.swap 0 1)⁻¹])) ∧
    elemLiftWith (default_lift 3) (elemT (elemOfMembers 2 3 [Equiv.swap 0 1])) =
      (default_lift 3 (Equiv.swap 0 1)).transpose :=
  element_transpose_orthogonal (default_lift 3) (by decide) (by decide) (Equiv.swap 0 1)

/-- Claim C10: the Element constructor accumulates repeated members modulo
the field order, so k copies of g build the same element as the integer
k mod q times the element on g; over GF(2) two copies of g build an
element equal to the zero element. -/
theorem elem_constructor_mod (n q k : ℕ) (g : GM n) :
    elemEq (elemOfMembers n q (List.replicate k g))
      (elemIntMul (elemOfMembers n q [g]) ((k % q : ℕ) : ℤ)) ∧
    elemEq (elemOfMembers n 2 [g, g]) (elemOfMembers n 2 []) := by
  constructor
  · have hsingle : elemOfMembers n q [g] = ⟨[(g, (1 : ZMod q))]⟩ := by
      have := elemOfMembers_replicate (q := q) g 1 one_ne_zero
      simpa using this
    have hrhs : elemIntMul (elemOfMembers n q [g]) ((k % q : ℕ) : ℤ) =
        ⟨[(g, ((k % q : ℕ) : ZMod q))]⟩ := by
      rw [hsingle]
      unfold elemIntMul
      simp [dictSet]
    have hcast : ((k % q : ℕ) : ZMod q) = (k : ZMod q) := by
      rw [ZMod.natCast_mod]
    rcases Nat.eq_zero_or_pos k with hk | hk
    · subst hk
      rw [hrhs]
      constructor
      · intro m hm
        simp [elemOfMembers, Elem.keys] at hm
      · intro m hm
        simp [Elem.keys] at hm
        subst hm
        simp [elemOfMembers, dictGet]
    · rw [elemOfMembers_replicate g k (Nat.pos_iff_ne_zero.mp hk), hrhs, hcast]
      exact ⟨fun m hm => rfl, fun m hm => rfl⟩
  · have h2 : elemOfMembers n 2 [g, g] = ⟨[(g, (2 : ZMod 2))]⟩ := by
      have := elemOfMembers_replicate (q := 2) g 2 (by decide)
      simpa [List.replicate] using this
    rw [h2]
    constructor
    · intro m hm
      simp [Elem.keys] at hm
      subst hm
      simp [dictGet, elemOfMembers]
      decide
    · intro m hm
      simp [elemOfMembers, Elem.keys] at hm
